import Mathlib

/-!
Verification development for the pump-fun sniper bot (Go sources).

The Go code is shallowly embedded: machine integers become `Nat`/`Int`
with explicit wrapping where Go converts between widths, `math/big`
integers become `Int`, and the floating-point steps (`big.Float` at a
given precision, and `float64` arithmetic at precision 53) are modelled
exactly as round-to-nearest-even on rationals.  All definitions are
executable so that concrete runs of the code can be evaluated inside
proofs.
-/

namespace PumpBot

/-! ### Bit length, as Go's `math/big.Int.BitLen` -/

/-- Fuel-driven bit length: number of bits in the binary representation
of `n` (0 for 0), provided `n < 2 ^ fuel`. -/
def bitLenFuel : ℕ → ℕ → ℕ
  | 0, _ => 0
  | fuel + 1, n => if n = 0 then 0 else bitLenFuel fuel (n / 2) + 1

/-- Bit length of a natural number (Go `big.Int.BitLen` on `|x|`).
Using the number itself as fuel makes the definition total and correct
for every input, since `n < 2 ^ n`. -/
def blen (n : ℕ) : ℕ := bitLenFuel n n

theorem bitLenFuel_zero (fuel : ℕ) : bitLenFuel fuel 0 = 0 := by
  cases fuel <;> simp [bitLenFuel]

theorem bitLenFuel_correct :
    ∀ fuel n, 0 < n → n < 2 ^ fuel →
      2 ^ (bitLenFuel fuel n - 1) ≤ n ∧ n < 2 ^ bitLenFuel fuel n := by
  intro fuel
  induction fuel with
  | zero => intro n hn hlt; omega
  | succ f ih =>
    intro n hn hlt
    have hne : n ≠ 0 := Nat.pos_iff_ne_zero.mp hn
    simp only [bitLenFuel, hne, if_false]
    rcases Nat.lt_or_ge n 2 with h2 | h2
    · have hn1 : n = 1 := by omega
      subst hn1
      simp [bitLenFuel_zero]
    · have hps : 2 ^ (f + 1) = 2 * 2 ^ f := by
        rw [pow_succ]
        ring
      have hhalfpos : 0 < n / 2 := Nat.div_pos h2 (by norm_num)
      have hhalflt : n / 2 < 2 ^ f := by omega
      obtain ⟨hlow, hhigh⟩ := ih (n / 2) hhalfpos hhalflt
      set b := bitLenFuel f (n / 2) with hb
      have hbpos : 0 < b := by
        by_contra hb0
        have hz : b = 0 := by omega
        rw [hz] at hhigh
        omega
      have hpb : 2 ^ b = 2 * 2 ^ (b - 1) := by
        rw [← pow_succ']
        congr 1
        omega
      have hpb1 : 2 ^ (b + 1) = 2 * 2 ^ b := by rw [pow_succ']
      have hsimp : b + 1 - 1 = b := by omega
      rw [hsimp]
      omega

theorem blen_correct {n : ℕ} (hn : 0 < n) :
    2 ^ (blen n - 1) ≤ n ∧ n < 2 ^ blen n :=
  bitLenFuel_correct n n hn (Nat.lt_two_pow n)

theorem blen_pos {n : ℕ} (hn : 0 < n) : 0 < blen n := by
  by_contra h
  have hz : blen n = 0 := by omega
  have := (blen_correct hn).2
  rw [hz] at this
  omega

/-! ### Kernel-friendly rational primitives

`pow2` and `intToQ` compute `(2 : ℚ) ^ e` and `((n : ℤ) : ℚ)` through
`Rat.divInt` and natural-number powers, which evaluate well inside
`decide`; the bridge lemmas identify them with the standard forms used
in proofs. -/

/-- `(2 : ℚ) ^ e`, computed through natural-number powers. -/
def pow2 (e : ℤ) : ℚ :=
  if 0 ≤ e then Rat.divInt ((2 ^ e.toNat : ℕ) : ℤ) 1
  else Rat.divInt 1 ((2 ^ (-e).toNat : ℕ) : ℤ)

/-- `((n : ℤ) : ℚ)`, computed through `Rat.divInt`. -/
def intToQ (n : ℤ) : ℚ := Rat.divInt n 1

theorem intToQ_eq (n : ℤ) : intToQ n = (n : ℚ) := Rat.divInt_one n

/-- Product of rationals, computed through `Rat.divInt`. -/
def qmul (a b : ℚ) : ℚ := Rat.divInt (a.num * b.num) ((a.den : ℤ) * (b.den : ℤ))

/-- Difference of rationals, computed through `Rat.divInt`. -/
def qsub (a b : ℚ) : ℚ :=
  Rat.divInt (a.num * (b.den : ℤ) - b.num * (a.den : ℤ)) ((a.den : ℤ) * (b.den : ℤ))

/-- Quotient of rationals, computed through `Rat.divInt`. -/
def qdiv (a b : ℚ) : ℚ := Rat.divInt (a.num * (b.den : ℤ)) ((a.den : ℤ) * b.num)

/-- Negation of a rational, computed through `Rat.divInt`. -/
def qneg (a : ℚ) : ℚ := Rat.divInt (-a.num) (a.den : ℤ)

/-- One half, computed through `Rat.divInt`. -/
def half : ℚ := Rat.divInt 1 2

theorem qmul_eq (a b : ℚ) : qmul a b = a * b := by
  unfold qmul
  rw [← Rat.divInt_mul_divInt', Rat.num_divInt_den, Rat.num_divInt_den]

theorem qdiv_eq (a b : ℚ) : qdiv a b = a / b := by
  unfold qdiv
  rw [div_eq_mul_inv, Rat.inv_def']
  conv_rhs => rw [← Rat.num_divInt_den a]
  rw [Rat.divInt_mul_divInt']

theorem qneg_eq (a : ℚ) : qneg a = -a := by
  unfold qneg
  rw [Rat.neg_def]

theorem qsub_eq (a b : ℚ) : qsub a b = a - b := by
  unfold qsub
  have ha : ((a.den : ℕ) : ℚ) ≠ 0 := Nat.cast_ne_zero.mpr a.den_nz
  have hb : ((b.den : ℕ) : ℚ) ≠ 0 := Nat.cast_ne_zero.mpr b.den_nz
  rw [Rat.divInt_eq_div]
  conv_rhs => rw [← Rat.num_div_den a, ← Rat.num_div_den b]
  rw [div_sub_div _ _ ha hb]
  push_cast
  ring_nf

theorem half_eq : half = 1 / 2 := by
  unfold half
  rw [Rat.divInt_eq_div]
  norm_num

theorem pow2_eq (e : ℤ) : pow2 e = (2 : ℚ) ^ e := by
  unfold pow2
  split
  · rename_i h
    rw [Rat.divInt_one]
    push_cast
    rw [← zpow_natCast (2 : ℚ) e.toNat]
    congr 1
    omega
  · rename_i h
    push_neg at h
    rw [Rat.divInt_eq_div]
    set k : ℕ := (-e).toNat with hkdef
    have hk : e = -(k : ℤ) := by omega
    rw [hk, zpow_neg, zpow_natCast (2 : ℚ) k]
    push_cast
    rw [one_div]

/-! ### Binary exponent of a positive rational -/

/-- The binary exponent `e` of a positive rational `q`, characterised by
`2 ^ (e - 1) ≤ q < 2 ^ e`.  Computed from the bit lengths of numerator
and denominator with a single comparison correction. -/
def ratExp (q : ℚ) : ℤ :=
  let A : ℤ := blen q.num.natAbs
  let B : ℤ := blen q.den
  if q < pow2 (A - B) then A - B else A - B + 1

theorem natCast_two_pow_eq_zpow (k : ℕ) :
    ((2 ^ k : ℕ) : ℚ) = (2 : ℚ) ^ (k : ℤ) := by
  push_cast
  rw [zpow_natCast]

theorem ratExp_correct {q : ℚ} (hq : 0 < q) :
    (2 : ℚ) ^ (ratExp q - 1) ≤ q ∧ q < (2 : ℚ) ^ ratExp q := by
  have hnum : 0 < q.num := Rat.num_pos.mpr hq
  have hden : 0 < q.den := q.pos
  have hapos : 0 < q.num.natAbs := by omega
  obtain ⟨haL, haH⟩ := blen_correct hapos
  obtain ⟨hbL, hbH⟩ := blen_correct hden
  have hApos : 0 < blen q.num.natAbs := blen_pos hapos
  have hBpos : 0 < blen q.den := blen_pos hden
  -- cast the bit-length bounds into ℚ with ℤ exponents
  have haLQ : (2 : ℚ) ^ ((blen q.num.natAbs : ℤ) - 1) ≤ (q.num.natAbs : ℚ) := by
    have hcast : ((blen q.num.natAbs - 1 : ℕ) : ℤ) = (blen q.num.natAbs : ℤ) - 1 := by
      omega
    calc (2 : ℚ) ^ ((blen q.num.natAbs : ℤ) - 1)
        = (2 : ℚ) ^ ((blen q.num.natAbs - 1 : ℕ) : ℤ) := by rw [hcast]
      _ = ((2 ^ (blen q.num.natAbs - 1) : ℕ) : ℚ) := (natCast_two_pow_eq_zpow _).symm
      _ ≤ (q.num.natAbs : ℚ) := by exact_mod_cast haL
  have haHQ : (q.num.natAbs : ℚ) < (2 : ℚ) ^ (blen q.num.natAbs : ℤ) := by
    calc (q.num.natAbs : ℚ) < ((2 ^ blen q.num.natAbs : ℕ) : ℚ) := by exact_mod_cast haH
      _ = (2 : ℚ) ^ (blen q.num.natAbs : ℤ) := by rw [natCast_two_pow_eq_zpow]
  have hbLQ : (2 : ℚ) ^ ((blen q.den : ℤ) - 1) ≤ (q.den : ℚ) := by
    have hcast : ((blen q.den - 1 : ℕ) : ℤ) = (blen q.den : ℤ) - 1 := by
      omega
    calc (2 : ℚ) ^ ((blen q.den : ℤ) - 1)
        = (2 : ℚ) ^ ((blen q.den - 1 : ℕ) : ℤ) := by rw [hcast]
      _ = ((2 ^ (blen q.den - 1) : ℕ) : ℚ) := (natCast_two_pow_eq_zpow _).symm
      _ ≤ (q.den : ℚ) := by exact_mod_cast hbL
  have hbHQ : (q.den : ℚ) < (2 : ℚ) ^ (blen q.den : ℤ) := by
    calc (q.den : ℚ) < ((2 ^ blen q.den : ℕ) : ℚ) := by exact_mod_cast hbH
      _ = (2 : ℚ) ^ (blen q.den : ℤ) := by rw [natCast_two_pow_eq_zpow]
  have hdenQ : (0 : ℚ) < (q.den : ℚ) := by exact_mod_cast hden
  have haQ : (q.num : ℚ) = (q.num.natAbs : ℚ) := by
    rw [Int.cast_natAbs]
    rw [abs_of_pos (by exact_mod_cast hnum)]
  have hqeq : q = (q.num.natAbs : ℚ) / (q.den : ℚ) := by
    rw [← haQ, Rat.num_div_den]
  have hqden : q * (q.den : ℚ) = (q.num.natAbs : ℚ) := by
    calc q * (q.den : ℚ) = ((q.num.natAbs : ℚ) / (q.den : ℚ)) * (q.den : ℚ) := by
          rw [← hqeq]
      _ = (q.num.natAbs : ℚ) := div_mul_cancel₀ _ (ne_of_gt hdenQ)
  -- q < 2 ^ (A - B + 1)
  have hupper : q < (2 : ℚ) ^ ((blen q.num.natAbs : ℤ) - (blen q.den : ℤ) + 1) := by
    refine (mul_lt_mul_right hdenQ).mp ?_
    rw [hqden]
    calc (q.num.natAbs : ℚ) < (2 : ℚ) ^ (blen q.num.natAbs : ℤ) := haHQ
      _ = (2 : ℚ) ^ ((blen q.num.natAbs : ℤ) - (blen q.den : ℤ) + 1) *
            (2 : ℚ) ^ ((blen q.den : ℤ) - 1) := by
          rw [← zpow_add₀ (by norm_num : (2 : ℚ) ≠ 0)]
          congr 1
          ring
      _ ≤ (2 : ℚ) ^ ((blen q.num.natAbs : ℤ) - (blen q.den : ℤ) + 1) * (q.den : ℚ) := by
          apply mul_le_mul_of_nonneg_left hbLQ
          positivity
  -- 2 ^ (A - B - 1) < q
  have hlower : (2 : ℚ) ^ ((blen q.num.natAbs : ℤ) - (blen q.den : ℤ) - 1) < q := by
    refine (mul_lt_mul_right hdenQ).mp ?_
    rw [hqden]
    calc (2 : ℚ) ^ ((blen q.num.natAbs : ℤ) - (blen q.den : ℤ) - 1) * (q.den : ℚ)
        < (2 : ℚ) ^ ((blen q.num.natAbs : ℤ) - (blen q.den : ℤ) - 1) *
            (2 : ℚ) ^ (blen q.den : ℤ) := by
          apply mul_lt_mul_of_pos_left hbHQ
          positivity
      _ = (2 : ℚ) ^ ((blen q.num.natAbs : ℤ) - 1) := by
          rw [← zpow_add₀ (by norm_num : (2 : ℚ) ≠ 0)]
          congr 1
          ring
      _ ≤ (q.num.natAbs : ℚ) := haLQ
  rcases lt_or_ge q (pow2 ((blen q.num.natAbs : ℤ) - (blen q.den : ℤ))) with hc | hc
  · have hre : ratExp q = (blen q.num.natAbs : ℤ) - (blen q.den : ℤ) := by
      simp only [ratExp]
      rw [if_pos hc]
    rw [pow2_eq] at hc
    rw [hre]
    refine ⟨?_, hc⟩
    exact le_of_lt hlower
  · have hre : ratExp q = (blen q.num.natAbs : ℤ) - (blen q.den : ℤ) + 1 := by
      simp only [ratExp]
      rw [if_neg (not_lt.mpr hc)]
    rw [pow2_eq] at hc
    rw [hre]
    constructor
    · have hexp : (blen q.num.natAbs : ℤ) - (blen q.den : ℤ) + 1 - 1 =
          (blen q.num.natAbs : ℤ) - (blen q.den : ℤ) := by ring
      rw [hexp]
      exact hc
    · exact hupper

theorem ratExp_le_of_lt {q : ℚ} {k : ℤ} (hq : 0 < q) (h : q < (2 : ℚ) ^ k) :
    ratExp q ≤ k := by
  by_contra hlt
  push_neg at hlt
  have h1 : k ≤ ratExp q - 1 := by omega
  have h2 : (2 : ℚ) ^ k ≤ (2 : ℚ) ^ (ratExp q - 1) :=
    zpow_le_zpow_right₀ (by norm_num) h1
  have := (ratExp_correct hq).1
  linarith

/-! ### Round half to even, and `big.Float` rounding

`roundHTE q` is the integer nearest `q`, ties going to the even integer;
`RNE p q` rounds `q` to `p` significant binary digits with
round-to-nearest-even, exactly as Go's `big.Float` (and, at precision
53 with the exponents arising here, `float64` arithmetic) does. -/

/-- Integer nearest to `q`, ties to the even integer. -/
def roundHTE (q : ℚ) : ℤ :=
  if qsub q (intToQ ⌊q⌋) < half then ⌊q⌋
  else if half < qsub q (intToQ ⌊q⌋) then ⌊q⌋ + 1
  else if ⌊q⌋ % 2 = 0 then ⌊q⌋ else ⌊q⌋ + 1

theorem roundHTE_eq (q : ℚ) :
    roundHTE q =
      if q - ⌊q⌋ < 1 / 2 then ⌊q⌋
      else if 1 / 2 < q - ⌊q⌋ then ⌊q⌋ + 1
      else if ⌊q⌋ % 2 = 0 then ⌊q⌋ else ⌊q⌋ + 1 := by
  simp only [roundHTE, qsub_eq, intToQ_eq, half_eq]

/-- Round `q` to `p` significant bits, to nearest, ties to even.
Mirrors `big.Float` mantissa rounding; the exponent range is unbounded,
which is accurate for `big.Float` and for `float64` values in the
normal range. -/
def RNE (p : ℕ) (q : ℚ) : ℚ :=
  if q = 0 then 0
  else if q < 0 then
    qneg (qmul (intToQ (roundHTE (qmul (qneg q) (pow2 ((p : ℤ) - ratExp (qneg q))))))
      (pow2 (ratExp (qneg q) - (p : ℤ))))
  else
    qmul (intToQ (roundHTE (qmul q (pow2 ((p : ℤ) - ratExp q)))))
      (pow2 (ratExp q - (p : ℤ)))

/-- Truncation toward zero (Go `big.Float.Int`). -/
def truncQ (q : ℚ) : ℤ := if q < 0 then -⌊qneg q⌋ else ⌊q⌋

theorem roundHTE_sub_le (q : ℚ) : (roundHTE q : ℚ) ≤ q + 1 / 2 := by
  rw [roundHTE_eq]
  have hfl : (⌊q⌋ : ℚ) ≤ q := Int.floor_le q
  have hfl2 : q < ⌊q⌋ + 1 := Int.lt_floor_add_one q
  split
  · linarith
  · split
    · push_cast
      rename_i h1 h2
      push_neg at h1
      linarith
    · split
      · linarith
      · push_cast
        rename_i h1 h2 h3
        push_neg at h1 h2
        linarith

theorem roundHTE_ge (q : ℚ) : q - 1 / 2 ≤ (roundHTE q : ℚ) := by
  rw [roundHTE_eq]
  have hfl : (⌊q⌋ : ℚ) ≤ q := Int.floor_le q
  have hfl2 : q < ⌊q⌋ + 1 := Int.lt_floor_add_one q
  split
  · rename_i h1
    linarith
  · split
    · push_cast
      linarith
    · split
      · rename_i h1 h2 h3
        push_neg at h1 h2
        linarith
      · push_cast
        rename_i h1 h2 h3
        push_neg at h1 h2
        linarith

theorem roundHTE_floor_le (q : ℚ) : ⌊q⌋ ≤ roundHTE q := by
  rw [roundHTE_eq]
  split
  · exact le_refl _
  · split
    · omega
    · split
      · exact le_refl _
      · omega

theorem roundHTE_le_floor_add_one (q : ℚ) : roundHTE q ≤ ⌊q⌋ + 1 := by
  rw [roundHTE_eq]
  split
  · omega
  · split
    · omega
    · split
      · omega
      · omega

theorem roundHTE_intCast (n : ℤ) : roundHTE (n : ℚ) = n := by
  rw [roundHTE_eq]
  rw [Int.floor_intCast]
  have h2 : (n : ℚ) - (n : ℚ) = 0 := by ring
  rw [h2]
  norm_num

theorem RNE_zero (p : ℕ) : RNE p 0 = 0 := by simp [RNE]

theorem RNE_of_pos {p : ℕ} {q : ℚ} (hq : 0 < q) :
    RNE p q = (roundHTE (q * (2 : ℚ) ^ ((p : ℤ) - ratExp q)) : ℚ) *
      (2 : ℚ) ^ (ratExp q - (p : ℤ)) := by
  unfold RNE
  rw [if_neg (ne_of_gt hq), if_neg (not_lt.mpr (le_of_lt hq))]
  simp only [qmul_eq, intToQ_eq, pow2_eq]

/-- The absolute rounding error is at most half an ulp:
`2 ^ (e - p - 1)` where `e` is the binary exponent of `q`. -/
theorem RNE_err {p : ℕ} {q : ℚ} (hq : 0 < q) :
    |RNE p q - q| ≤ (2 : ℚ) ^ (ratExp q - (p : ℤ) - 1) := by
  rw [RNE_of_pos hq]
  have hpow : (0 : ℚ) < (2 : ℚ) ^ (ratExp q - (p : ℤ)) := by positivity
  have hkey : q = q * (2 : ℚ) ^ ((p : ℤ) - ratExp q) * (2 : ℚ) ^ (ratExp q - (p : ℤ)) := by
    rw [mul_assoc, ← zpow_add₀ (by norm_num : (2 : ℚ) ≠ 0)]
    have : (p : ℤ) - ratExp q + (ratExp q - (p : ℤ)) = 0 := by ring
    rw [this]
    norm_num
  set u := q * (2 : ℚ) ^ ((p : ℤ) - ratExp q) with hu
  have h1 : (roundHTE u : ℚ) * (2 : ℚ) ^ (ratExp q - (p : ℤ)) - q =
      ((roundHTE u : ℚ) - u) * (2 : ℚ) ^ (ratExp q - (p : ℤ)) := by
    rw [sub_mul, ← hkey]
  calc |(roundHTE u : ℚ) * (2 : ℚ) ^ (ratExp q - (p : ℤ)) - q|
      = |(roundHTE u : ℚ) - u| * (2 : ℚ) ^ (ratExp q - (p : ℤ)) := by
        rw [h1, abs_mul, abs_of_pos hpow]
    _ ≤ (1 / 2) * (2 : ℚ) ^ (ratExp q - (p : ℤ)) := by
        apply mul_le_mul_of_nonneg_right _ (le_of_lt hpow)
        rw [abs_le]
        constructor
        · have := roundHTE_ge u
          linarith
        · have := roundHTE_sub_le u
          linarith
    _ = (2 : ℚ) ^ (ratExp q - (p : ℤ) - 1) := by
        rw [zpow_sub₀ (by norm_num : (2 : ℚ) ≠ 0) (ratExp q - (p : ℤ)) 1]
        norm_num
        ring

/-- Relative error bound: `|RNE p q - q| ≤ q * 2 ^ (-p)`. -/
theorem RNE_rel {p : ℕ} {q : ℚ} (hq : 0 < q) :
    |RNE p q - q| ≤ q * (2 : ℚ) ^ (-(p : ℤ)) := by
  calc |RNE p q - q| ≤ (2 : ℚ) ^ (ratExp q - (p : ℤ) - 1) := RNE_err hq
    _ = (2 : ℚ) ^ (ratExp q - 1) * (2 : ℚ) ^ (-(p : ℤ)) := by
        rw [← zpow_add₀ (by norm_num : (2 : ℚ) ≠ 0)]
        congr 1
        ring
    _ ≤ q * (2 : ℚ) ^ (-(p : ℤ)) := by
        apply mul_le_mul_of_nonneg_right (ratExp_correct hq).1
        positivity

theorem RNE_rel_bounds {p : ℕ} {q : ℚ} (hq : 0 < q) :
    q * (1 - (2 : ℚ) ^ (-(p : ℤ))) ≤ RNE p q ∧
      RNE p q ≤ q * (1 + (2 : ℚ) ^ (-(p : ℤ))) := by
  have h := RNE_rel (p := p) hq
  rw [abs_le] at h
  constructor
  · nlinarith [h.1]
  · nlinarith [h.2]

/-- When the scaled mantissa is an integer, rounding is exact. -/
theorem RNE_exact {p : ℕ} {q : ℚ} (hq : 0 < q)
    (h : ∃ n : ℤ, q * (2 : ℚ) ^ ((p : ℤ) - ratExp q) = (n : ℚ)) :
    RNE p q = q := by
  obtain ⟨n, hn⟩ := h
  rw [RNE_of_pos hq, hn, roundHTE_intCast, ← hn, mul_assoc,
    ← zpow_add₀ (by norm_num : (2 : ℚ) ≠ 0)]
  have hz : (p : ℤ) - ratExp q + (ratExp q - (p : ℤ)) = 0 := by ring
  rw [hz]
  norm_num

/-- Naturals whose binary exponent fits in the precision round exactly. -/
theorem RNE_natCast {p : ℕ} {n : ℕ} (hn : 0 < n) (h : ratExp (n : ℚ) ≤ (p : ℤ)) :
    RNE p (n : ℚ) = (n : ℚ) := by
  have hq : (0 : ℚ) < (n : ℚ) := by exact_mod_cast hn
  apply RNE_exact hq
  refine ⟨(n : ℤ) * 2 ^ ((p : ℤ) - ratExp (n : ℚ)).toNat, ?_⟩
  have htn : (((p : ℤ) - ratExp (n : ℚ)).toNat : ℤ) = (p : ℤ) - ratExp (n : ℚ) := by
    omega
  push_cast
  rw [← zpow_natCast (2 : ℚ) ((p : ℤ) - ratExp (n : ℚ)).toNat, htn]

theorem ratExp_le_of_le_natCast {q : ℚ} {n : ℕ} (hq : 0 < q) (hn : 0 < n)
    (h : q ≤ (n : ℚ)) : ratExp q ≤ (blen n : ℤ) := by
  apply ratExp_le_of_lt hq
  calc q ≤ (n : ℚ) := h
    _ < ((2 ^ blen n : ℕ) : ℚ) := by exact_mod_cast (blen_correct hn).2
    _ = (2 : ℚ) ^ (blen n : ℤ) := natCast_two_pow_eq_zpow _

/-- Rounding a positive value at sufficient precision never drops below
its integer floor. -/
theorem RNE_floor_le {p : ℕ} {q : ℚ} (hq : 0 < q) (hep : ratExp q ≤ (p : ℤ)) :
    (⌊q⌋ : ℚ) ≤ RNE p q := by
  rw [RNE_of_pos hq]
  have hNnn : 0 ≤ ⌊q⌋ := Int.floor_nonneg.mpr (le_of_lt hq)
  have hpowpos : (0 : ℚ) < (2 : ℚ) ^ ((p : ℤ) - ratExp q) := by positivity
  have hpowpos' : (0 : ℚ) < (2 : ℚ) ^ (ratExp q - (p : ℤ)) := by positivity
  set k : ℕ := ((p : ℤ) - ratExp q).toNat with hk
  have hkz : (k : ℤ) = (p : ℤ) - ratExp q := by omega
  have hNint : ((⌊q⌋ * 2 ^ k : ℤ) : ℚ) = (⌊q⌋ : ℚ) * (2 : ℚ) ^ ((p : ℤ) - ratExp q) := by
    push_cast
    rw [← zpow_natCast (2 : ℚ) k, hkz]
  have hle : ((⌊q⌋ * 2 ^ k : ℤ) : ℚ) ≤ q * (2 : ℚ) ^ ((p : ℤ) - ratExp q) := by
    rw [hNint]
    apply mul_le_mul_of_nonneg_right (Int.floor_le q) (le_of_lt hpowpos)
  have hfloor : ⌊q⌋ * 2 ^ k ≤ ⌊q * (2 : ℚ) ^ ((p : ℤ) - ratExp q)⌋ :=
    Int.le_floor.mpr hle
  have hr : ⌊q⌋ * 2 ^ k ≤ roundHTE (q * (2 : ℚ) ^ ((p : ℤ) - ratExp q)) :=
    le_trans hfloor (roundHTE_floor_le _)
  have hrQ : ((⌊q⌋ * 2 ^ k : ℤ) : ℚ) ≤
      ((roundHTE (q * (2 : ℚ) ^ ((p : ℤ) - ratExp q)) : ℤ) : ℚ) := by
    exact_mod_cast hr
  calc (⌊q⌋ : ℚ)
      = ((⌊q⌋ * 2 ^ k : ℤ) : ℚ) * (2 : ℚ) ^ (ratExp q - (p : ℤ)) := by
        rw [hNint, mul_assoc, ← zpow_add₀ (by norm_num : (2 : ℚ) ≠ 0)]
        have hz : (p : ℤ) - ratExp q + (ratExp q - (p : ℤ)) = 0 := by ring
        rw [hz]
        norm_num
    _ ≤ ((roundHTE (q * (2 : ℚ) ^ ((p : ℤ) - ratExp q)) : ℤ) : ℚ) *
          (2 : ℚ) ^ (ratExp q - (p : ℤ)) := by
        apply mul_le_mul_of_nonneg_right hrQ (le_of_lt hpowpos')

/-- At sufficient precision the rounding error is at most 1/2. -/
theorem RNE_le_add_half {p : ℕ} {q : ℚ} (hq : 0 < q) (hep : ratExp q ≤ (p : ℤ)) :
    RNE p q ≤ q + 1 / 2 := by
  have herr := RNE_err (p := p) hq
  rw [abs_le] at herr
  have hbound : (2 : ℚ) ^ (ratExp q - (p : ℤ) - 1) ≤ 1 / 2 := by
    calc (2 : ℚ) ^ (ratExp q - (p : ℤ) - 1) ≤ (2 : ℚ) ^ (-1 : ℤ) :=
          zpow_le_zpow_right₀ (by norm_num) (by omega)
      _ = 1 / 2 := by norm_num
  linarith [herr.2]

theorem truncQ_of_nonneg {q : ℚ} (h : 0 ≤ q) : truncQ q = ⌊q⌋ := by
  unfold truncQ
  rw [if_neg (not_lt.mpr h)]

/-! ### Go integer conversions -/

/-- Go conversion `int64(n)` of a `uint64` value `n < 2 ^ 64`:
two's-complement reinterpretation. -/
def toInt64 (n : ℕ) : ℤ :=
  if n < 2 ^ 63 then (n : ℤ) else (n : ℤ) - ((2 ^ 64 : ℕ) : ℤ)

/-- `int64` negation (wraps at the minimum value). -/
def int64Neg (v : ℤ) : ℤ := if v = -((2 ^ 63 : ℕ) : ℤ) then v else -v

/-- Go `math/big.Int.Int64`: the low 64 bits of `|t|` reinterpreted as
`int64`, negated (with wrapping) when `t` is negative.  This is the
observed behaviour of the implementation; the Go documentation leaves
out-of-range inputs undefined. -/
def bigIntToInt64 (t : ℤ) : ℤ :=
  if t < 0 then int64Neg (toInt64 (t.natAbs % 2 ^ 64))
  else toInt64 (t.natAbs % 2 ^ 64)

theorem RNE_pos {p : ℕ} {q : ℚ} (hq : 0 < q) (hp : 0 < p) : 0 < RNE p q := by
  have h := (RNE_rel_bounds (p := p) hq).1
  have hhalf : (2 : ℚ) ^ (-(p : ℤ)) ≤ 1 / 2 := by
    have hle : (-(p : ℤ)) ≤ -1 := by omega
    calc (2 : ℚ) ^ (-(p : ℤ)) ≤ (2 : ℚ) ^ (-1 : ℤ) :=
          zpow_le_zpow_right₀ (by norm_num) hle
      _ = 1 / 2 := by norm_num
  nlinarith

/-! ### Bonding curve calculator

From `BondingCurveData` and `calculateBuyQuote` in the source.  The
three reserve fields are decoded `uint64` values (held in `*big.Int`),
so they are naturals below `2 ^ 64`; `solAmount` is a `uint64`; the
`percentage` parameter stands for the exact rational value of the
`float64` argument. -/

structure BondingCurveData where
  realTokenReserves : ℕ
  virtualTokenReserves : ℕ
  virtualSolReserves : ℕ

/-- Go `calculateBuyQuote`:

* `solAmountBig := big.NewInt(int64(solAmount))` — the `uint64` is
  reinterpreted as `int64` (wrapping at `2 ^ 63`);
* `newVirtualTokenReserves := invariant.Div(newVirtualSolReserves)` —
  `big.Int.Div` is Euclidean division (`Int.ediv`); Go panics when the
  divisor is zero, for which this model returns the quote with the
  quotient taken as 0;
* the final multiplier step builds a `big.Float` of precision
  `max(BitLen tokensToBuy, 64)` from `tokensToBuy`, multiplies it by
  `big.NewFloat(percentage)` (round to nearest even at that precision),
  and truncates toward zero with `Float.Int`. -/
def calculateBuyQuote (solAmount : ℕ) (bondingCurve : BondingCurveData)
    (percentage : ℚ) : ℤ :=
  let solAmountBig : ℤ := toInt64 solAmount
  let virtualSolReserves : ℤ := bondingCurve.virtualSolReserves
  let virtualTokenReserves : ℤ := bondingCurve.virtualTokenReserves
  let newVirtualSolReserves : ℤ := virtualSolReserves + solAmountBig
  let invariant : ℤ := virtualSolReserves * virtualTokenReserves
  let newVirtualTokenReserves : ℤ := Int.ediv invariant newVirtualSolReserves
  let tokensToBuy : ℤ := virtualTokenReserves - newVirtualTokenReserves
  let prec : ℕ := max (blen tokensToBuy.natAbs) 64
  truncQ (RNE prec (qmul (intToQ tokensToBuy) percentage))

theorem toInt64_of_lt {n : ℕ} (h : n < 2 ^ 63) : toInt64 n = (n : ℤ) := by
  unfold toInt64
  rw [if_pos h]

theorem intDiv_cast (a b : ℕ) : Int.ediv (a : ℤ) (b : ℤ) = ((a / b : ℕ) : ℤ) := rfl

/-- With positive sol reserves, the post-trade token reserve is at most
the pre-trade one. -/
theorem newTokenReserves_le (vSol vTok amt : ℕ) (hsol : 0 < vSol) :
    vSol * vTok / (vSol + amt) ≤ vTok := by
  calc vSol * vTok / (vSol + amt) ≤ vSol * vTok / vSol :=
        Nat.div_le_div_left (Nat.le_add_right _ _) hsol
    _ = vTok := Nat.mul_div_cancel_left _ hsol

/-- Unfolding of `calculateBuyQuote` on inputs where the `int64`
conversion is value-preserving and the divisor is positive. -/
theorem calculateBuyQuote_eq (solAmount : ℕ) (bc : BondingCurveData) (mult : ℚ)
    (hamt : solAmount < 2 ^ 63) (hsol : 0 < bc.virtualSolReserves) :
    calculateBuyQuote solAmount bc mult =
      truncQ (RNE
        (max (blen (bc.virtualTokenReserves -
          bc.virtualSolReserves * bc.virtualTokenReserves /
            (bc.virtualSolReserves + solAmount))) 64)
        (((bc.virtualTokenReserves -
          bc.virtualSolReserves * bc.virtualTokenReserves /
            (bc.virtualSolReserves + solAmount) : ℕ) : ℚ) * mult)) := by
  have hd : bc.virtualSolReserves * bc.virtualTokenReserves /
      (bc.virtualSolReserves + solAmount) ≤ bc.virtualTokenReserves :=
    newTokenReserves_le _ _ _ hsol
  simp only [calculateBuyQuote, toInt64_of_lt hamt]
  rw [← Int.natCast_mul, ← Int.natCast_add, intDiv_cast]
  rw [← Int.ofNat_sub hd]
  rw [qmul_eq, intToQ_eq]
  rw [Int.natAbs_ofNat]
  push_cast
  ring_nf

/-- The quote formula in the specification's words: constant-product
invariant, truncating integer division, and a final
`floor(rawUnits * slippageMultiplier)` step computed exactly. -/
def specBuyQuote (solAmount : ℕ) (bondingCurve : BondingCurveData)
    (mult : ℚ) : ℤ :=
  let newVirtualSol : ℕ := bondingCurve.virtualSolReserves + solAmount
  let newVirtualToken : ℕ :=
    bondingCurve.virtualSolReserves * bondingCurve.virtualTokenReserves / newVirtualSol
  let rawUnits : ℕ := bondingCurve.virtualTokenReserves - newVirtualToken
  ⌊qmul (intToQ (rawUnits : ℤ)) mult⌋

theorem specBuyQuote_eq_floor (solAmount : ℕ) (bc : BondingCurveData) (mult : ℚ) :
    specBuyQuote solAmount bc mult =
      ⌊((bc.virtualTokenReserves -
          bc.virtualSolReserves * bc.virtualTokenReserves /
            (bc.virtualSolReserves + solAmount) : ℕ) : ℚ) * mult⌋ := by
  simp only [specBuyQuote, qmul_eq, intToQ_eq, Int.cast_natCast]

/-- At multiplier 1 the `big.Float` step is exact, and the quote is the
raw integer token delta. -/
theorem calculateBuyQuote_one (solAmount : ℕ) (bc : BondingCurveData)
    (hamt : solAmount < 2 ^ 63) (hsol : 0 < bc.virtualSolReserves) :
    calculateBuyQuote solAmount bc 1 =
      ((bc.virtualTokenReserves - bc.virtualSolReserves * bc.virtualTokenReserves /
        (bc.virtualSolReserves + solAmount) : ℕ) : ℤ) := by
  rw [calculateBuyQuote_eq _ _ _ hamt hsol]
  set r : ℕ := bc.virtualTokenReserves - bc.virtualSolReserves *
    bc.virtualTokenReserves / (bc.virtualSolReserves + solAmount) with hr
  rw [mul_one]
  rcases Nat.eq_zero_or_pos r with h0 | hpos
  · rw [h0]
    norm_num [RNE_zero, truncQ]
  · have hble : (blen r : ℤ) ≤ ((max (blen r) 64 : ℕ) : ℤ) := by
      exact_mod_cast le_max_left (blen r) 64
    have hep : ratExp ((r : ℕ) : ℚ) ≤ ((max (blen r) 64 : ℕ) : ℤ) :=
      le_trans (ratExp_le_of_le_natCast (by exact_mod_cast hpos) hpos (le_refl _)) hble
    rw [RNE_natCast hpos hep]
    rw [truncQ_of_nonneg (by positivity)]
    rw [Int.floor_natCast]

/-- The general multiplier case: the computed quote differs from the
exact `floor(rawUnits * mult)` by at most one unit upward (the
round-to-nearest mantissa step can cross an integer boundary). -/
theorem buyQuote_bounds (solAmount : ℕ) (bc : BondingCurveData) (mult : ℚ)
    (hamt : solAmount < 2 ^ 63) (hsol : 0 < bc.virtualSolReserves)
    (hm0 : 0 < mult) (hm1 : mult ≤ 1) :
    specBuyQuote solAmount bc mult ≤ calculateBuyQuote solAmount bc mult ∧
      calculateBuyQuote solAmount bc mult ≤ specBuyQuote solAmount bc mult + 1 := by
  rw [calculateBuyQuote_eq _ _ _ hamt hsol, specBuyQuote_eq_floor]
  set r : ℕ := bc.virtualTokenReserves - bc.virtualSolReserves *
    bc.virtualTokenReserves / (bc.virtualSolReserves + solAmount) with hr
  rcases Nat.eq_zero_or_pos r with h0 | hpos
  · rw [h0]
    norm_num [RNE_zero, truncQ]
  · set p : ℕ := max (blen r) 64 with hp
    set v : ℚ := ((r : ℕ) : ℚ) * mult with hv
    have hrq : (0 : ℚ) < ((r : ℕ) : ℚ) := by exact_mod_cast hpos
    have hvpos : 0 < v := by
      rw [hv]
      positivity
    have hvler : v ≤ ((r : ℕ) : ℚ) := by
      rw [hv]
      nlinarith
    have hble : (blen r : ℤ) ≤ (p : ℤ) := by
      exact_mod_cast le_max_left (blen r) 64
    have hep : ratExp v ≤ (p : ℤ) :=
      le_trans (ratExp_le_of_le_natCast hvpos hpos hvler) hble
    have h1 : (⌊v⌋ : ℚ) ≤ RNE p v := RNE_floor_le hvpos hep
    have h2 : RNE p v ≤ v + 1 / 2 := RNE_le_add_half hvpos hep
    have hfnn : (0 : ℤ) ≤ ⌊v⌋ := Int.floor_nonneg.mpr (le_of_lt hvpos)
    have hRnn : (0 : ℚ) ≤ RNE p v := by
      calc (0 : ℚ) ≤ (⌊v⌋ : ℚ) := by exact_mod_cast hfnn
        _ ≤ RNE p v := h1
    rw [truncQ_of_nonneg hRnn]
    constructor
    · exact Int.le_floor.mpr h1
    · have hlt : RNE p v < ((⌊v⌋ + 2 : ℤ) : ℚ) := by
        have := Int.lt_floor_add_one v
        push_cast
        linarith
      have := Int.floor_lt.mpr hlt
      omega

/-! ### Creator vetting (monitor-mints.go)

`exchangeAddresses`/`isExchangeAddress` are from utils.go.  A
transaction is modelled as the list of its top-level instructions;
only system-program transfer instructions matter to `checkHasFunder`,
every other (or undecodable) instruction is `nonTransfer`.  A
transaction response that fails to decode is `none`. -/

def exchangeAddresses : List String :=
  ["AC5RDfQFmDS1deWZos921JfqscXdByf8BKHs5ACWjtW2",
   "42brAgAVNzMBP7aaktPvAmBSPEkehnFQejiZc53EpJFd",
   "ASTyfSima4LLAdDgoFGkgqoKowG1LZFDr9fAQrg7iaJZ",
   "H8sMJSCQxfKiFTCfDR3DUMLPwcRbM61LGFJ8N4dK3WjS",
   "GJRs4FwHtemZ5ZE9x3FNvJ8TMwitKTh21yxdRPqn7npE",
   "5tzFkiKscXHK5ZXCGbXZxdw7gTjjD1mBwuoFbhUvuAi9",
   "2ojv9BAiHUrvsm9gxDe7fJSzbNZSJcxZvf8dqmWGHG8S",
   "5VCwKtCXgCJ6kit5FybXjvriW3xELsFDhYrPSqtJNmcD",
   "2AQdpHJ2JpcEgPiATUXjQxA8QmafFegfQwSLWSprPicm"]

def isExchangeAddress (address : String) : Bool :=
  exchangeAddresses.contains address

/-- A decoded top-level instruction, as far as `checkHasFunder` looks at
it: a system-program transfer carries its funding (sending) address and
its optional lamport amount. -/
inductive SysInstr where
  | transfer (funding : String) (lamports : Option ℕ)
  | nonTransfer
deriving DecidableEq

/-- The `solAmount > 0.05` test of `checkHasFunder`: `float64` of the
lamports, divided by `1e9` and compared against the `0.05` literal. -/
def lamportsGT005 (lamports : ℕ) : Bool :=
  decide (RNE 53 (Rat.divInt 1 20) <
    RNE 53 (qdiv (RNE 53 (intToQ (lamports : ℤ))) (intToQ 1000000000)))

/-- The `float64` threshold test agrees exactly with the integer test
`lamports > 50000000` (0.05 SOL): the two rounding steps cannot move a
quotient across the rounded `0.05` literal. -/
theorem lamportsGT005_iff (L : ℕ) : lamportsGT005 L = true ↔ 50000000 < L := by
  unfold lamportsGT005
  rw [decide_eq_true_eq, qdiv_eq, intToQ_eq, intToQ_eq]
  have h120 : Rat.divInt 1 20 = (1 : ℚ) / 20 := by
    rw [Rat.divInt_eq_div]
    norm_num
  rw [h120]
  have hcastL : (((L : ℕ) : ℤ) : ℚ) = ((L : ℕ) : ℚ) := by push_cast; rfl
  have hden : (((1000000000 : ℤ)) : ℚ) = 1000000000 := by norm_num
  rw [hcastL, hden]
  have heps : (2 : ℚ) ^ (-((53 : ℕ) : ℤ)) = 1 / 9007199254740992 := by
    rw [zpow_neg, zpow_natCast]
    norm_num
  set ε : ℚ := 1 / 9007199254740992 with hεdef
  have hc05pos : 0 < RNE 53 ((1 : ℚ) / 20) := RNE_pos (by norm_num) (by norm_num)
  have hc05b := RNE_rel_bounds (p := 53) (q := (1 : ℚ) / 20) (by norm_num)
  rw [heps] at hc05b
  rcases Nat.eq_zero_or_pos L with h0 | hLpos
  · subst h0
    simp only [Nat.cast_zero, RNE_zero, zero_div]
    constructor
    · intro h
      exact absurd h (not_lt.mpr (le_of_lt hc05pos))
    · intro h
      omega
  have hLq : (0 : ℚ) < ((L : ℕ) : ℚ) := by exact_mod_cast hLpos
  -- exact first conversion whenever L < 2 ^ 53
  have hexact : L < 2 ^ 53 → RNE 53 ((L : ℕ) : ℚ) = ((L : ℕ) : ℚ) := by
    intro hsmall
    apply RNE_natCast hLpos
    apply ratExp_le_of_lt hLq
    calc ((L : ℕ) : ℚ) < ((2 ^ 53 : ℕ) : ℚ) := by exact_mod_cast hsmall
      _ = (2 : ℚ) ^ ((53 : ℕ) : ℤ) := natCast_two_pow_eq_zpow 53
  rcases lt_trichotomy L 50000000 with hlt | heq | hgt
  · -- below the threshold: both sides false
    rw [hexact (by omega)]
    have hq : (0 : ℚ) < ((L : ℕ) : ℚ) / 1000000000 := by positivity
    have hx2 := RNE_rel_bounds (p := 53) hq
    rw [heps] at hx2
    have hqub : ((L : ℕ) : ℚ) / 1000000000 ≤ 49999999 / 1000000000 := by
      have : ((L : ℕ) : ℚ) ≤ 49999999 := by exact_mod_cast (by omega : L ≤ 49999999)
      gcongr
    have hfar : (49999999 / 1000000000 : ℚ) * (1 + ε) < (1 / 20) * (1 - ε) := by
      rw [hεdef]
      norm_num
    constructor
    · intro h
      exfalso
      have h1 : RNE 53 (((L : ℕ) : ℚ) / 1000000000) ≤
          (49999999 / 1000000000 : ℚ) * (1 + ε) := by
        calc RNE 53 (((L : ℕ) : ℚ) / 1000000000)
            ≤ (((L : ℕ) : ℚ) / 1000000000) * (1 + ε) := hx2.2
          _ ≤ (49999999 / 1000000000 : ℚ) * (1 + ε) := by
              apply mul_le_mul_of_nonneg_right hqub
              rw [hεdef]
              norm_num
      linarith [hc05b.1]
    · intro h
      omega
  · -- exactly 0.05 SOL: equal floats, both sides false
    subst heq
    rw [hexact (by norm_num)]
    have hqq : ((50000000 : ℕ) : ℚ) / 1000000000 = (1 : ℚ) / 20 := by norm_num
    rw [hqq]
    constructor
    · intro h
      exact absurd h (lt_irrefl _)
    · intro h
      omega
  · -- above the threshold: both sides true
    have hL1 : (50000001 : ℚ) ≤ ((L : ℕ) : ℚ) := by exact_mod_cast (by omega : 50000001 ≤ L)
    have hx1 := RNE_rel_bounds (p := 53) hLq
    rw [heps] at hx1
    have hx1pos : 0 < RNE 53 ((L : ℕ) : ℚ) := RNE_pos hLq (by norm_num)
    have hq : (0 : ℚ) < RNE 53 ((L : ℕ) : ℚ) / 1000000000 := by positivity
    have hx2 := RNE_rel_bounds (p := 53) hq
    rw [heps] at hx2
    have hεnn : (0 : ℚ) ≤ 1 - ε := by
      rw [hεdef]
      norm_num
    constructor
    · intro h
      omega
    · intro h
      calc RNE 53 ((1 : ℚ) / 20) ≤ (1 / 20) * (1 + ε) := hc05b.2
        _ < (50000001 : ℚ) * (1 - ε) * (1 - ε) / 1000000000 := by
            rw [hεdef]
            norm_num
        _ ≤ ((L : ℕ) : ℚ) * (1 - ε) * (1 - ε) / 1000000000 := by gcongr
        _ ≤ RNE 53 ((L : ℕ) : ℚ) * (1 - ε) / 1000000000 := by
            have hmono : ((L : ℕ) : ℚ) * (1 - ε) * (1 - ε) ≤
                RNE 53 ((L : ℕ) : ℚ) * (1 - ε) := by
              apply mul_le_mul_of_nonneg_right hx1.1 hεnn
            gcongr
        _ = (RNE 53 ((L : ℕ) : ℚ) / 1000000000) * (1 - ε) := by ring
        _ ≤ RNE 53 (RNE 53 ((L : ℕ) : ℚ) / 1000000000) := hx2.1

/-- Go `checkHasFunder`: first transfer instruction whose funding
address differs from the creator and moves more than 0.05 SOL; `""`
when there is none. -/
def checkHasFunder : List SysInstr → String → String
  | [], _ => ""
  | SysInstr.transfer funding (some lamports) :: rest, creatorAddr =>
      if funding != creatorAddr && lamportsGT005 lamports then funding
      else checkHasFunder rest creatorAddr
  | SysInstr.transfer _ none :: rest, creatorAddr => checkHasFunder rest creatorAddr
  | SysInstr.nonTransfer :: rest, creatorAddr => checkHasFunder rest creatorAddr

/-- `funders = append(funders, funder)` guarded by `funder != ""`. -/
def appendFunder (funders : List String) (funder : String) : List String :=
  if funder != "" then funders ++ [funder] else funders

/-- Loop body of Go `findFundersFromResps`: responses that fail to
decode are skipped entirely (they `continue` before the length check);
for a decoded transaction the funder, if any, is appended, and the
function returns as soon as the accumulated list reaches
`fundersLimit`. -/
def findFundersAux (responses : List (Option (List SysInstr)))
    (creatorAddress : String) (fundersLimit : ℕ) (funders : List String) :
    List String :=
  match responses with
  | [] => funders
  | none :: rest => findFundersAux rest creatorAddress fundersLimit funders
  | some tx :: rest =>
      if (appendFunder funders (checkHasFunder tx creatorAddress)).length =
          fundersLimit then
        appendFunder funders (checkHasFunder tx creatorAddress)
      else
        findFundersAux rest creatorAddress fundersLimit
          (appendFunder funders (checkHasFunder tx creatorAddress))

theorem appendFunder_length (funders : List String) (funder : String) :
    (appendFunder funders funder).length ≤ funders.length + 1 := by
  unfold appendFunder
  split
  · rw [List.length_append]
    simp
  · omega

theorem appendFunder_mem (funders : List String) (funder g : String)
    (hg : g ∈ appendFunder funders funder) :
    g ∈ funders ∨ (g = funder ∧ g ≠ "") := by
  unfold appendFunder at hg
  by_cases hc : (funder != "") = true
  · rw [if_pos hc] at hg
    rcases List.mem_append.mp hg with h | h
    · exact Or.inl h
    · have he : g = funder := List.mem_singleton.mp h
      subst he
      exact Or.inr ⟨rfl, bne_iff_ne.mp hc⟩
  · rw [if_neg hc] at hg
    exact Or.inl hg

def findFundersFromResps (responses : List (Option (List SysInstr)))
    (creatorAddress : String) (fundersLimit : ℕ) : List String :=
  findFundersAux responses creatorAddress fundersLimit []

/-- A non-empty result of `checkHasFunder` is the funding address of a
transfer instruction of the transaction, differs from the creator, and
moved strictly more than 50000000 lamports (0.05 SOL). -/
theorem checkHasFunder_spec (instrs : List SysInstr) (creatorAddr : String) :
    ∀ f, checkHasFunder instrs creatorAddr = f → f ≠ "" →
      ∃ L, SysInstr.transfer f (some L) ∈ instrs ∧ f ≠ creatorAddr ∧ 50000000 < L := by
  induction instrs with
  | nil =>
    intro f hf hne
    exact absurd hf.symm hne
  | cons i rest ih =>
    intro f hf hne
    match i with
    | SysInstr.transfer funding (some lamports) =>
      rw [checkHasFunder] at hf
      by_cases hc : (funding != creatorAddr && lamportsGT005 lamports) = true
      · rw [if_pos hc] at hf
        subst hf
        rw [Bool.and_eq_true, bne_iff_ne] at hc
        exact ⟨lamports, List.mem_cons_self _ _, hc.1, (lamportsGT005_iff _).mp hc.2⟩
      · rw [if_neg hc] at hf
        obtain ⟨L, hmem, hne', hgt⟩ := ih f hf hne
        exact ⟨L, List.mem_cons_of_mem _ hmem, hne', hgt⟩
    | SysInstr.transfer funding none =>
      rw [checkHasFunder] at hf
      obtain ⟨L, hmem, hne', hgt⟩ := ih f hf hne
      exact ⟨L, List.mem_cons_of_mem _ hmem, hne', hgt⟩
    | SysInstr.nonTransfer =>
      rw [checkHasFunder] at hf
      obtain ⟨L, hmem, hne', hgt⟩ := ih f hf hne
      exact ⟨L, List.mem_cons_of_mem _ hmem, hne', hgt⟩

/-- The accumulating scan never grows past the limit once started below
it. -/
theorem findFundersAux_length (responses : List (Option (List SysInstr)))
    (creatorAddress : String) (fundersLimit : ℕ) :
    ∀ funders : List String, funders.length < fundersLimit →
      (findFundersAux responses creatorAddress fundersLimit funders).length ≤
        fundersLimit := by
  induction responses with
  | nil =>
    intro funders h
    rw [findFundersAux]
    omega
  | cons r rest ih =>
    intro funders h
    match r with
    | none =>
      rw [findFundersAux]
      exact ih funders h
    | some tx =>
      rw [findFundersAux]
      have happ := appendFunder_length funders (checkHasFunder tx creatorAddress)
      split
      · rename_i hlen
        omega
      · rename_i hlen
        apply ih
        omega

/-- Every address produced by the scan that is not already in the
accumulator comes from one of the decoded responses via
`checkHasFunder`. -/
theorem findFundersAux_mem (responses : List (Option (List SysInstr)))
    (creatorAddress : String) (fundersLimit : ℕ) :
    ∀ funders : List String, ∀ f,
      f ∈ findFundersAux responses creatorAddress fundersLimit funders →
      f ∈ funders ∨ ∃ tx, (some tx) ∈ responses ∧
        checkHasFunder tx creatorAddress = f ∧ f ≠ "" := by
  induction responses with
  | nil =>
    intro funders f hf
    rw [findFundersAux] at hf
    exact Or.inl hf
  | cons r rest ih =>
    intro funders f hf
    match r with
    | none =>
      rw [findFundersAux] at hf
      rcases ih funders f hf with h | ⟨tx, htx, hch, hne⟩
      · exact Or.inl h
      · exact Or.inr ⟨tx, List.mem_cons_of_mem _ htx, hch, hne⟩
    | some tx =>
      rw [findFundersAux] at hf
      split at hf
      · rcases appendFunder_mem _ _ _ hf with h | ⟨he, hne⟩
        · exact Or.inl h
        · exact Or.inr ⟨tx, List.mem_cons_self _ _, he.symm, hne⟩
      · rcases ih _ f hf with h | ⟨tx', htx', hch, hne⟩
        · rcases appendFunder_mem _ _ _ h with h' | ⟨he, hne⟩
          · exact Or.inl h'
          · exact Or.inr ⟨tx, List.mem_cons_self _ _, he.symm, hne⟩
        · exact Or.inr ⟨tx', List.mem_cons_of_mem _ htx', hch, hne⟩

/-- Once the scan has reached the limit within a prefix of the
responses, further responses are never inspected. -/
theorem findFundersAux_append (more : List (Option (List SysInstr)))
    (creatorAddress : String) (fundersLimit : ℕ)
    (responses : List (Option (List SysInstr))) :
    ∀ funders : List String, funders.length < fundersLimit →
      (findFundersAux responses creatorAddress fundersLimit funders).length =
        fundersLimit →
      findFundersAux (responses ++ more) creatorAddress fundersLimit funders =
        findFundersAux responses creatorAddress fundersLimit funders := by
  induction responses with
  | nil =>
    intro funders hlt hstop
    rw [findFundersAux] at hstop
    omega
  | cons r rest ih =>
    intro funders hlt hstop
    match r with
    | none =>
      rw [findFundersAux] at hstop
      rw [List.cons_append, findFundersAux]
      rw [findFundersAux]
      exact ih funders hlt hstop
    | some tx =>
      rw [findFundersAux] at hstop
      rw [List.cons_append, findFundersAux]
      conv_rhs => rw [findFundersAux]
      have hlen' := appendFunder_length funders (checkHasFunder tx creatorAddress)
      by_cases hstopnow : (appendFunder funders
          (checkHasFunder tx creatorAddress)).length = fundersLimit
      · simp only [if_pos hstopnow]
      · simp only [if_neg hstopnow] at hstop ⊢
        apply ih
        · omega
        · exact hstop

/-- Go `isSafeFunder`, modelled by the message it sends on
`funderStatusChan`: `some true` for an allowlisted exchange address,
`some false` for a funder with coin-creation history, and `none` in
the remaining case, where the function returns without sending
anything (the second-order checks are commented out in the source). -/
def isSafeFunder (addressCreatedCoin : String → Bool) (funder : String) :
    Option Bool :=
  if isExchangeAddress funder then some true
  else if addressCreatedCoin funder then some false
  else none

/-- Go `shouldBuyCoin`.  `addressCreatedCoin` stands for the database
lookup, `funderTrans` for the result of `fetchNLastTrans` (`none` on
error).  The result is `some` of the decision when the fan-in loop
terminates, and `none` when some funder goroutine never sends a
message, leaving the loop blocked forever. -/
def shouldBuyCoin (addressCreatedCoin : String → Bool)
    (creatorPurchaseSol : ℚ) (creator : String)
    (funderTrans : Option (List (Option (List SysInstr)))) : Option Bool :=
  if creatorPurchaseSol < Rat.divInt 1 2 ∨ Rat.divInt 5 2 < creatorPurchaseSol then
    some false
  else if addressCreatedCoin creator then some false
  else
    match funderTrans with
    | none => some false
    | some responses =>
      let creatorFunders := findFundersFromResps responses creator 3
      if creatorFunders.length = 0 then some false
      else
        let msgs := creatorFunders.map (isSafeFunder addressCreatedCoin)
        if msgs.all (·.isSome) then some (msgs.all (· == some true))
        else none

/-! ### Pending-coin registry scans (handle-sell-coin.go, utils.go)

Only the fields consulted by `botHoldsTokens`, `fetchCoinsToSell` and
`SellCoinFast` are modelled. -/

structure Coin where
  tokensHeld : Option ℤ
  creatorSold : Bool
  botPurchased : Bool
  exitedBuyCoin : Bool
  exitedSellCoin : Bool
  exitedCreatorListener : Bool
  isSellingCoin : Bool
deriving DecidableEq

/-- Go `botHoldsTokens`: `c.tokensHeld.Int64() > 100`, where the
`big.Int` is first squeezed through `Int64` (wrapping, see
`bigIntToInt64`). -/
def botHoldsTokens (c : Coin) : Bool :=
  match c.tokensHeld with
  | none => false
  | some t => decide (100 < bigIntToInt64 t)

/-- `big.Int.Int64` is the identity on values within the `int64`
range. -/
theorem bigIntToInt64_of_range {t : ℤ} (h1 : -(2 ^ 63) ≤ t) (h2 : t < 2 ^ 63) :
    bigIntToInt64 t = t := by
  unfold bigIntToInt64 toInt64 int64Neg
  have habs : t.natAbs < 2 ^ 64 := by omega
  have hmod : t.natAbs % 2 ^ 64 = t.natAbs := Nat.mod_eq_of_lt habs
  rw [hmod]
  by_cases hneg : t < 0
  · rw [if_pos hneg]
    by_cases hsmall : t.natAbs < 2 ^ 63
    · rw [if_pos hsmall]
      rw [if_neg (by omega)]
      omega
    · rw [if_neg hsmall]
      rw [if_pos (by omega)]
      omega
  · rw [if_neg hneg]
    rw [if_pos (by omega)]
    omega

/-- Go `fetchCoinsToSell`: one pass over the registry, returning the
surviving registry entries and the coins selected for selling.  A coin
is deleted when it exited the buy path without a holding, or when both
the sell routine and the creator listener have exited; it is selected
for selling when it is held, the creator sold, and no sell is already
running. -/
def fetchCoinsToSell (pendingCoins : List (String × Coin)) :
    List (String × Coin) × List Coin :=
  match pendingCoins with
  | [] => ([], [])
  | (mintAddr, coin) :: rest =>
      let (remaining, toSell) := fetchCoinsToSell rest
      let deleted := (coin.exitedBuyCoin && !botHoldsTokens coin) ||
        (coin.exitedSellCoin && coin.exitedCreatorListener)
      let selected := botHoldsTokens coin && coin.creatorSold && !coin.isSellingCoin
      ((if deleted then remaining else (mintAddr, coin) :: remaining),
       (if selected then coin :: toSell else toSell))

/-- Every coin selected for selling by the registry scan is held
(`botHoldsTokens`), its creator sold, and no sell was already
running. -/
theorem fetchCoinsToSell_selected :
    ∀ pendingCoins : List (String × Coin), ∀ c : Coin,
      c ∈ (fetchCoinsToSell pendingCoins).2 →
      botHoldsTokens c = true ∧ c.creatorSold = true ∧ c.isSellingCoin = false := by
  intro pendingCoins
  induction pendingCoins with
  | nil =>
    intro c hc
    rw [fetchCoinsToSell] at hc
    exact absurd hc (List.not_mem_nil c)
  | cons p rest ih =>
    intro c hc
    rw [fetchCoinsToSell] at hc
    obtain ⟨mintAddr, coin⟩ := p
    simp only at hc
    by_cases hsel : (botHoldsTokens coin && coin.creatorSold && !coin.isSellingCoin) = true
    · rw [if_pos hsel] at hc
      rcases List.mem_cons.mp hc with he | hmem
      · subst he
        simp only [Bool.and_eq_true, Bool.not_eq_true'] at hsel
        exact ⟨hsel.1.1, hsel.1.2, hsel.2⟩
      · exact ih c hmem
    · rw [if_neg hsel] at hc
      exact ih c hc

/-- The registry-cleanup branch: a coin that exited the buy path
without a holding has every occurrence removed from the surviving
registry. -/
theorem fetchCoinsToSell_cleanup :
    ∀ pendingCoins : List (String × Coin), ∀ mintAddr : String, ∀ c : Coin,
      c.exitedBuyCoin = true → botHoldsTokens c = false →
      (mintAddr, c) ∉ (fetchCoinsToSell pendingCoins).1 := by
  intro pendingCoins
  induction pendingCoins with
  | nil =>
    intro m c hexit hhold hc
    rw [fetchCoinsToSell] at hc
    exact absurd hc (List.not_mem_nil _)
  | cons p rest ih =>
    intro m c hexit hhold hc
    rw [fetchCoinsToSell] at hc
    obtain ⟨mintAddr', coin'⟩ := p
    simp only at hc
    by_cases hdel : ((coin'.exitedBuyCoin && !botHoldsTokens coin') ||
        (coin'.exitedSellCoin && coin'.exitedCreatorListener)) = true
    · rw [if_pos hdel] at hc
      exact ih m c hexit hhold hc
    · rw [if_neg hdel] at hc
      rcases List.mem_cons.mp hc with he | hmem
      · have h1 : coin' = c := (Prod.mk.injEq _ _ _ _ ▸ he.symm).2
        subst h1
        rw [Bool.or_eq_true, Bool.and_eq_true, Bool.and_eq_true] at hdel
        push_neg at hdel
        have := hdel.1
        rw [hexit, hhold] at this
        simp at this
      · exact ih m c hexit hhold hmem

/-- State of a coin after `SellCoinFast` has started but no sell
transaction ever confirmed: `isSellingCoin` was set on entry and is
never cleared; the function is then blocked forever on `<-result`
(nothing sends on the channel), so the deferred
`setExitedSellCoinTrue` never runs. -/
def sellCoinFastUnconfirmed (coin : Coin) : Coin :=
  { coin with isSellingCoin := true }

/-! ### Jito routing decision (tip.go)

The three Go maps of `JitoManager` are modelled as association lists;
`lookupGo` is a Go map read, which yields the value type's zero value
(`""` for strings, `false` for booleans) when the key is absent. -/

/-- Go map read `m[k]`: the stored value, or the zero value `dflt`. -/
def lookupGo {β : Type} (m : List (String × β)) (k : String) (dflt : β) : β :=
  match m.find? (fun p => p.1 == k) with
  | some p => p.2
  | none => dflt

structure JitoManager where
  slotIndex : ℕ
  slotLeader : List (ℕ × String)
  voteAccounts : List (String × String)
  jitoValidators : List (String × Bool)

/-- Go `isJitoLeader`: look up the current slot's leader (`false` when
absent), then read `jitoValidators[voteAccounts[validator]]` with Go
zero-value map semantics. -/
def isJitoLeader (j : JitoManager) : Bool :=
  match j.slotLeader.find? (fun p => p.1 == j.slotIndex) with
  | none => false
  | some p => lookupGo j.jitoValidators (lookupGo j.voteAccounts p.2 "") false

/-! ### Creator-buy extraction (monitor-mints.go)

A creation transaction is modelled as the list of its instructions as
`fetchCreatorBuy` classifies them: a decodable pump `buy` instruction
carries its optional `MaxSolCost` and optional associated-user
account; everything else (including undecodable instructions) is
`otherInstr`. -/

inductive MintInstr where
  | buy (maxSolCost : Option ℕ) (associatedUser : Option String)
  | otherInstr
deriving DecidableEq

inductive CreatorBuyErr where
  | noCreatorBuy
  | noCreatorATA
deriving DecidableEq

/-- Result of `fetchCreatorBuy`: either the recorded purchase size and
creator token account, or one of the two decode errors. -/
inductive CreatorBuyResult where
  | ok (purchaseSol : ℚ) (creatorATA : String)
  | err (e : CreatorBuyErr)
deriving DecidableEq

/-- The purchase size recorded by `fetchCreatorBuy`:
`0.99 * float64(*p.MaxSolCost) / float64(solana.LAMPORTS_PER_SOL)`,
each `float64` operation rounding to nearest even. -/
def creatorBuySol (maxSolCost : ℕ) : ℚ :=
  RNE 53 (qdiv
    (RNE 53 (qmul (RNE 53 (Rat.divInt 99 100)) (RNE 53 (intToQ (maxSolCost : ℤ)))))
    (intToQ 1000000000))

/-- Go `fetchCreatorBuy`: scan the instructions for the first decodable
`buy`; a buy without `MaxSolCost` aborts with `errNoCreatorBuy`, one
without an associated user with `errNoCreatorATA`; otherwise the
recorded purchase is `creatorBuySol MaxSolCost` together with the
creator's token account.  No buy at all yields `errNoCreatorBuy`. -/
def fetchCreatorBuy : List MintInstr → CreatorBuyResult
  | [] => .err .noCreatorBuy
  | MintInstr.buy none _ :: _ => .err .noCreatorBuy
  | MintInstr.buy (some _) none :: _ => .err .noCreatorATA
  | MintInstr.buy (some maxSolCost) (some associatedUser) :: _ =>
      .ok (creatorBuySol maxSolCost) associatedUser
  | MintInstr.otherInstr :: rest => fetchCreatorBuy rest

/-- The recorded purchase size is within relative error `2 ^ (-49)` of
the exact `0.99 * MaxSolCost / 1e9` (four correctly-rounded `float64`
steps, each with relative error at most `2 ^ (-53)`). -/
theorem creatorBuySol_bounds (M : ℕ) (hM : 0 < M) :
    ((99 / 100 : ℚ) * M / 1000000000) * (1 - 1 / 2 ^ 49) ≤ creatorBuySol M ∧
      creatorBuySol M ≤ ((99 / 100 : ℚ) * M / 1000000000) * (1 + 1 / 2 ^ 49) := by
  have hMq : (0 : ℚ) < ((M : ℕ) : ℚ) := by exact_mod_cast hM
  have heps : (2 : ℚ) ^ (-((53 : ℕ) : ℤ)) = 1 / 9007199254740992 := by
    rw [zpow_neg, zpow_natCast]
    norm_num
  set ε : ℚ := 1 / 9007199254740992 with hεdef
  have hε0 : (0 : ℚ) < ε := by rw [hεdef]; norm_num
  have hε1 : ε < 1 / 2 := by rw [hεdef]; norm_num
  have hεle : (0 : ℚ) ≤ 1 - ε := by rw [hεdef]; norm_num
  have h99eq : Rat.divInt 99 100 = (99 : ℚ) / 100 := by
    rw [Rat.divInt_eq_div]
    norm_num
  have hcM : (((M : ℕ) : ℤ) : ℚ) = ((M : ℕ) : ℚ) := by push_cast; rfl
  have hden : (((1000000000 : ℤ)) : ℚ) = 1000000000 := by norm_num
  unfold creatorBuySol
  rw [qdiv_eq, qmul_eq, intToQ_eq, intToQ_eq, h99eq, hcM, hden]
  have hc99b := RNE_rel_bounds (p := 53) (q := (99 : ℚ) / 100) (by norm_num)
  rw [heps] at hc99b
  have hc99pos : 0 < RNE 53 ((99 : ℚ) / 100) := RNE_pos (by norm_num) (by norm_num)
  have hf1b := RNE_rel_bounds (p := 53) hMq
  rw [heps] at hf1b
  have hf1pos : 0 < RNE 53 ((M : ℕ) : ℚ) := RNE_pos hMq (by norm_num)
  set c99 := RNE 53 ((99 : ℚ) / 100) with hc99def
  set f1 := RNE 53 ((M : ℕ) : ℚ) with hf1def
  have hv1pos : 0 < c99 * f1 := mul_pos hc99pos hf1pos
  have hv1low : (99 / 100 : ℚ) * (1 - ε) * (((M : ℕ) : ℚ) * (1 - ε)) ≤ c99 * f1 := by
    apply mul_le_mul hc99b.1 hf1b.1
    · positivity
    · exact le_of_lt hc99pos
  have hv1high : c99 * f1 ≤ (99 / 100 : ℚ) * (1 + ε) * (((M : ℕ) : ℚ) * (1 + ε)) := by
    apply mul_le_mul hc99b.2 hf1b.2 (le_of_lt hf1pos)
    positivity
  have hv2b := RNE_rel_bounds (p := 53) hv1pos
  rw [heps] at hv2b
  have hv2pos : 0 < RNE 53 (c99 * f1) := RNE_pos hv1pos (by norm_num)
  set v2 := RNE 53 (c99 * f1) with hv2def
  have hv2low : (99 / 100 : ℚ) * ((M : ℕ) : ℚ) * (1 - ε) ^ 3 ≤ v2 := by
    calc (99 / 100 : ℚ) * ((M : ℕ) : ℚ) * (1 - ε) ^ 3
        = ((99 / 100 : ℚ) * (1 - ε) * (((M : ℕ) : ℚ) * (1 - ε))) * (1 - ε) := by
          ring
      _ ≤ (c99 * f1) * (1 - ε) := by
          apply mul_le_mul_of_nonneg_right hv1low hεle
      _ ≤ v2 := hv2b.1
  have hv2high : v2 ≤ (99 / 100 : ℚ) * ((M : ℕ) : ℚ) * (1 + ε) ^ 3 := by
    calc v2 ≤ (c99 * f1) * (1 + ε) := hv2b.2
      _ ≤ ((99 / 100 : ℚ) * (1 + ε) * (((M : ℕ) : ℚ) * (1 + ε))) * (1 + ε) := by
          apply mul_le_mul_of_nonneg_right hv1high (by linarith)
      _ = (99 / 100 : ℚ) * ((M : ℕ) : ℚ) * (1 + ε) ^ 3 := by ring
  have hv3pos : 0 < v2 / 1000000000 := by positivity
  have hv4b := RNE_rel_bounds (p := 53) hv3pos
  rw [heps] at hv4b
  constructor
  · calc ((99 / 100 : ℚ) * ((M : ℕ) : ℚ) / 1000000000) * (1 - 1 / 2 ^ 49)
        ≤ ((99 / 100 : ℚ) * ((M : ℕ) : ℚ) / 1000000000) * ((1 - ε) ^ 4) := by
          apply mul_le_mul_of_nonneg_left _ (by positivity)
          rw [hεdef]
          norm_num
      _ = ((99 / 100 : ℚ) * ((M : ℕ) : ℚ) * (1 - ε) ^ 3 / 1000000000) * (1 - ε) := by
          ring
      _ ≤ (v2 / 1000000000) * (1 - ε) := by
          apply mul_le_mul_of_nonneg_right _ hεle
          gcongr
      _ ≤ RNE 53 (v2 / 1000000000) := hv4b.1
  · calc RNE 53 (v2 / 1000000000) ≤ (v2 / 1000000000) * (1 + ε) := hv4b.2
      _ ≤ ((99 / 100 : ℚ) * ((M : ℕ) : ℚ) * (1 + ε) ^ 3 / 1000000000) * (1 + ε) := by
          apply mul_le_mul_of_nonneg_right _ (by linarith)
          gcongr
      _ = ((99 / 100 : ℚ) * ((M : ℕ) : ℚ) / 1000000000) * ((1 + ε) ^ 4) := by
          ring
      _ ≤ ((99 / 100 : ℚ) * ((M : ℕ) : ℚ) / 1000000000) * (1 + 1 / 2 ^ 49) := by
          apply mul_le_mul_of_nonneg_left _ (by positivity)
          rw [hεdef]
          norm_num

/-- When no buy instruction (with or without a cost) appears at all,
the scan fails with `errNoCreatorBuy`. -/
theorem fetchCreatorBuy_no_buy :
    ∀ instrs : List MintInstr,
      (∀ c u, MintInstr.buy c u ∉ instrs) →
      fetchCreatorBuy instrs = .err .noCreatorBuy := by
  intro instrs
  induction instrs with
  | nil =>
    intro h
    rw [fetchCreatorBuy]
  | cons i rest ih =>
    intro h
    match i with
    | MintInstr.buy c u => exact absurd (List.mem_cons_self _ _) (h c u)
    | MintInstr.otherInstr =>
      rw [fetchCreatorBuy]
      exact ih fun c u hmem => h c u (List.mem_cons_of_mem _ hmem)

/-- The first decodable buy instruction determines the result: the
recorded purchase is `creatorBuySol` of its `MaxSolCost` and the
recorded account is its associated user. -/
theorem fetchCreatorBuy_first_buy :
    ∀ pre : List MintInstr, (∀ c u, MintInstr.buy c u ∉ pre) →
      ∀ (maxSolCost : ℕ) (user : String) (rest : List MintInstr),
      fetchCreatorBuy (pre ++ MintInstr.buy (some maxSolCost) (some user) :: rest) =
        .ok (creatorBuySol maxSolCost) user := by
  intro pre
  induction pre with
  | nil =>
    intro _ maxSolCost user rest
    rw [List.nil_append, fetchCreatorBuy]
  | cons i pre' ih =>
    intro h maxSolCost user rest
    match i with
    | MintInstr.buy c u => exact absurd (List.mem_cons_self _ _) (h c u)
    | MintInstr.otherInstr =>
      rw [List.cons_append, fetchCreatorBuy]
      exact ih (fun c u hmem => h c u (List.mem_cons_of_mem _ hmem)) maxSolCost user rest

/-! ### Late-entry guard

Go `lateToBuy` (utils.go): all arithmetic is `float64`, modelled as
round-to-nearest-even at precision 53.  `creatorPurchaseSol` is the
exact value of the `float64` field; the virtual sol reserves are the
decoded `uint64`, converted with `big.Int.Float64` (nearest even). -/
def lateToBuy (creatorPurchaseSol : ℚ) (virtualSolReserves : ℕ) : Bool :=
  let reservesLamports : ℚ := RNE 53 (intToQ (virtualSolReserves : ℤ))
  let reservesSol : ℚ := RNE 53 (qdiv reservesLamports (intToQ 1000000000))
  let reservesLessCreatorSol : ℚ := RNE 53 (qsub reservesSol creatorPurchaseSol)
  decide (RNE 53 (Rat.divInt 1 10) < RNE 53 (qsub reservesLessCreatorSol (intToQ 30)))

/-! ## Claims -/

set_option maxRecDepth 100000

/-- Concrete inputs used to evaluate the models at specific points. -/
def noHistory : String → Bool := fun _ => false

/-- One decoded response holding a transfer of 1 SOL from an
allowlisted exchange address. -/
def exchFunderResps : List (Option (List SysInstr)) :=
  [some [SysInstr.transfer "AC5RDfQFmDS1deWZos921JfqscXdByf8BKHs5ACWjtW2"
    (some 1000000000)]]

/-- One decoded response holding a transfer of 1 SOL from an address
that is neither allowlisted nor a past creator. -/
def plainFunderResps : List (Option (List SysInstr)) :=
  [some [SysInstr.transfer "FunderWithoutHistory1111111111111111111111"
    (some 1000000000)]]

/-- **C1** counterexample.  The claim states the quote equals
`floor((vTok - floor(vSol*vTok/(vSol+amount))) * mult)` for every
unsigned 64-bit purchase amount; at amount `2 ^ 63` the
`int64(solAmount)` conversion wraps to `-2 ^ 63` and the code returns
a hugely negative value where the formula gives 500. -/
theorem c1_counterexample :
    calculateBuyQuote (2 ^ 63) ⟨0, 1000, 2 ^ 63 + 100⟩ 1 = -92233720368547758080 ∧
      specBuyQuote (2 ^ 63) ⟨0, 1000, 2 ^ 63 + 100⟩ 1 = 500 ∧
      calculateBuyQuote (2 ^ 63) ⟨0, 1000, 2 ^ 63 + 100⟩ 1 ≠
        specBuyQuote (2 ^ 63) ⟨0, 1000, 2 ^ 63 + 100⟩ 1 := by
  refine ⟨by decide, by decide, by decide⟩

/-- **C1** (amended).  For purchase amounts below `2 ^ 63` (where the
`int64` conversion is value-preserving), positive virtual sol
reserves, and any multiplier in `(0, 1]`, the quote is computed with
arbitrary-precision integer arithmetic and lies within one unit above
`floor(rawUnits * mult)`: the final `big.Float` multiplier step rounds
to nearest (not toward zero), which can exceed the floor by exactly
one. -/
theorem c1_quote_floor_within_one (solAmount : ℕ) (bc : BondingCurveData)
    (mult : ℚ) (hamt : solAmount < 2 ^ 63) (hsol : 0 < bc.virtualSolReserves)
    (hm0 : 0 < mult) (hm1 : mult ≤ 1) :
    specBuyQuote solAmount bc mult ≤ calculateBuyQuote solAmount bc mult ∧
      calculateBuyQuote solAmount bc mult ≤ specBuyQuote solAmount bc mult + 1 :=
  buyQuote_bounds solAmount bc mult hamt hsol hm0 hm1

/-- Witness for **C1** at a pump.fun-sized snapshot and a 0.98-like
multiplier. -/
theorem c1_witness :
    specBuyQuote 1000000000 ⟨0, 1073000000000000, 30000000000⟩ (Rat.divInt 49 50) ≤
        calculateBuyQuote 1000000000 ⟨0, 1073000000000000, 30000000000⟩
          (Rat.divInt 49 50) ∧
      calculateBuyQuote 1000000000 ⟨0, 1073000000000000, 30000000000⟩
          (Rat.divInt 49 50) ≤
        specBuyQuote 1000000000 ⟨0, 1073000000000000, 30000000000⟩
          (Rat.divInt 49 50) + 1 :=
  c1_quote_floor_within_one 1000000000 ⟨0, 1073000000000000, 30000000000⟩
    (Rat.divInt 49 50) (by decide) (by decide) (by decide) (by decide)

/-- **C2** counterexample.  The claim bounds the multiplier-1 quote by
the virtual token reserves for every purchase amount; at amount
`2 ^ 63` (with `vSol = 2 ^ 62 > 0`, `vTok = 1000 > 0`) the wrapped
conversion makes the Euclidean quotient negative and the quote is
2000, exceeding the reserves. -/
theorem c2_counterexample :
    calculateBuyQuote (2 ^ 63) ⟨0, 1000, 2 ^ 62⟩ 1 = 2000 ∧
      (1000 : ℤ) < calculateBuyQuote (2 ^ 63) ⟨0, 1000, 2 ^ 62⟩ 1 := by
  refine ⟨by decide, by decide⟩

/-- **C2** (amended).  For purchase amounts below `2 ^ 63`, positive
reserves, the multiplier-1 quote is at most the virtual token
reserves, and it is monotonically nondecreasing in the purchase
amount. -/
theorem c2_quote_bounded_monotone (amt1 amt2 : ℕ) (bc : BondingCurveData)
    (h12 : amt1 ≤ amt2) (h2 : amt2 < 2 ^ 63)
    (hsol : 0 < bc.virtualSolReserves) (_htok : 0 < bc.virtualTokenReserves) :
    calculateBuyQuote amt1 bc 1 ≤ (bc.virtualTokenReserves : ℤ) ∧
      calculateBuyQuote amt1 bc 1 ≤ calculateBuyQuote amt2 bc 1 := by
  have h1 : amt1 < 2 ^ 63 := lt_of_le_of_lt h12 h2
  rw [calculateBuyQuote_one amt1 bc h1 hsol, calculateBuyQuote_one amt2 bc h2 hsol]
  constructor
  · exact_mod_cast Nat.sub_le _ _
  · have hdiv : bc.virtualSolReserves * bc.virtualTokenReserves /
        (bc.virtualSolReserves + amt2) ≤
          bc.virtualSolReserves * bc.virtualTokenReserves /
            (bc.virtualSolReserves + amt1) :=
      Nat.div_le_div_left (by omega) (by omega)
    exact_mod_cast Nat.sub_le_sub_left hdiv _

/-- Witness for **C2**. -/
theorem c2_witness :
    calculateBuyQuote 1000000000 ⟨0, 1073000000000000, 30000000000⟩ 1 ≤
        ((1073000000000000 : ℕ) : ℤ) ∧
      calculateBuyQuote 1000000000 ⟨0, 1073000000000000, 30000000000⟩ 1 ≤
        calculateBuyQuote 2000000000 ⟨0, 1073000000000000, 30000000000⟩ 1 :=
  c2_quote_bounded_monotone 1000000000 2000000000 ⟨0, 1073000000000000, 30000000000⟩
    (by decide) (by decide) (by decide) (by decide)

/-- **C3** counterexample.  The claim says `lateToBuy` returns true at
31.05 SOL of reserves with a 1.0 SOL creator purchase; the code
computes a drift of 0.05, which is not above the 0.1 tolerance, so it
returns false. -/
theorem c3_counterexample : lateToBuy 1 31050000000 = false := by decide

/-- **C3** (amended).  With a 1.0 SOL creator purchase, `lateToBuy`
returns false at 31.05 SOL of virtual reserves (drift 0.05, within
the 0.1 tolerance) and false at exactly 31.0; the guard fires only
above 31.1, e.g. at 31.15. -/
theorem c3_lateToBuy_values :
    lateToBuy 1 31050000000 = false ∧ lateToBuy 1 31000000000 = false ∧
      lateToBuy 1 31150000000 = true := by
  refine ⟨by decide, by decide, by decide⟩

/-- **C4** (code bug).  For a funder that is neither allowlisted nor a
past creator, `isSafeFunder` falls through both branches and returns
without sending any verdict on the channel (the "otherwise safe" path
is commented out), so `shouldBuyCoin` blocks forever waiting for one
result per funder: the model returns `none` (no verdict, no decision)
where the claim requires a safe verdict and an admission. -/
theorem c4_missing_verdict_blocks :
    isSafeFunder noHistory "FunderWithoutHistory1111111111111111111111" = none ∧
      shouldBuyCoin noHistory 1 "C" (some plainFunderResps) = none := by
  refine ⟨by decide, by decide⟩

/-- A held coin whose creator has sold, before any disposal attempt:
tokensHeld, creatorSold, botPurchased, exitedBuyCoin, exitedSellCoin,
exitedCreatorListener, isSellingCoin. -/
def heldCoin : Coin := ⟨some 1000000, true, true, true, false, false, false⟩

/-- **C5** (code bug).  After a disposal race that never confirms a
transaction, the asset is still held and flagged `creatorSold`, yet
`fetchCoinsToSell` never selects it again: `SellCoinFast` set
`isSellingCoin` on entry and never clears it (and, blocked forever on
`<-result`, never returns), so the "not already selling" test fails on
every later scan cycle, contradicting the claim that a later cycle
re-triggers disposal. -/
theorem c5_no_retrigger_after_unconfirmed_race :
    botHoldsTokens (sellCoinFastUnconfirmed heldCoin) = true ∧
      (sellCoinFastUnconfirmed heldCoin).creatorSold = true ∧
      (fetchCoinsToSell [("Mint", sellCoinFastUnconfirmed heldCoin)]).2 = [] ∧
      (fetchCoinsToSell [("Mint", sellCoinFastUnconfirmed heldCoin)]).1 =
        [("Mint", sellCoinFastUnconfirmed heldCoin)] := by
  refine ⟨by decide, by decide, by decide, by decide⟩

/-- **C6** (confirmed).  `shouldBuyCoin` rejects a 0.4 SOL creator
purchase (below the 0.5 floor) and a 2.6 SOL one (above the 2.5
ceiling); rejects a 1.0 SOL purchase with zero discoverable funders;
and admits a 1.0 SOL purchase whose single discovered funder is an
allowlisted exchange address. -/
theorem c6_shouldBuyCoin_cases :
    shouldBuyCoin noHistory (Rat.divInt 2 5) "C" (some exchFunderResps) = some false ∧
      shouldBuyCoin noHistory (Rat.divInt 13 5) "C" (some exchFunderResps) = some false ∧
      shouldBuyCoin noHistory 1 "C" (some []) = some false ∧
      shouldBuyCoin noHistory 1 "C" (some exchFunderResps) = some true := by
  refine ⟨by decide, by decide, by decide, by decide⟩

/-- **C7** (confirmed).  The funder scan returns at most 3 addresses;
every returned address is the funding (sending) address of a
native-transfer instruction in one of the decoded responses, differs
from the creator, and moved strictly more than 50000000 lamports
(0.05 SOL); and once the cap is reached within a prefix of the
responses, appending further responses does not change the result
(the scan stops at the cap). -/
theorem c7_findFunders_spec (responses : List (Option (List SysInstr)))
    (creatorAddress : String) :
    (findFundersFromResps responses creatorAddress 3).length ≤ 3 ∧
      (∀ f ∈ findFundersFromResps responses creatorAddress 3,
        f ≠ creatorAddress ∧ ∃ tx, (some tx) ∈ responses ∧
          ∃ L, SysInstr.transfer f (some L) ∈ tx ∧ 50000000 < L) ∧
      (∀ more, (findFundersFromResps responses creatorAddress 3).length = 3 →
        findFundersFromResps (responses ++ more) creatorAddress 3 =
          findFundersFromResps responses creatorAddress 3) := by
  refine ⟨?_, ?_, ?_⟩
  · exact findFundersAux_length responses creatorAddress 3 [] (by norm_num)
  · intro f hf
    rcases findFundersAux_mem responses creatorAddress 3 [] f hf with h | ⟨tx, htx, hch, hne⟩
    · exact absurd h (List.not_mem_nil f)
    · obtain ⟨L, hmem, hnecr, hgt⟩ := checkHasFunder_spec tx creatorAddress f hch hne
      exact ⟨hnecr, tx, htx, L, hmem, hgt⟩
  · intro more hstop
    exact findFundersAux_append more creatorAddress 3 responses [] (by norm_num) hstop

/-- Witness for **C7**: on a single response with a 1 SOL transfer from
a plain funder, the scan finds that funder, and its justification is
concrete. -/
theorem c7_witness :
    ("FunderWithoutHistory1111111111111111111111" : String) ≠ "C" ∧
      ∃ tx, (some tx) ∈ plainFunderResps ∧
        ∃ L, SysInstr.transfer "FunderWithoutHistory1111111111111111111111"
          (some L) ∈ tx ∧ 50000000 < L :=
  (c7_findFunders_spec plainFunderResps "C").2.1
    "FunderWithoutHistory1111111111111111111111" (by decide)

/-- **C8** counterexample.  The claim says `isJitoLeader` returns true
only when the slot leader resolves through the vote-account map to an
identity present in the Jito validator set; with an empty vote-account
map and a `"" ↦ true` entry in the validator set (Go zero-value map
semantics), it returns true although the leader has no vote-account
entry at all. -/
theorem c8_counterexample :
    isJitoLeader ⟨0, [(0, "A")], [], [("", true)]⟩ = true ∧
      (JitoManager.voteAccounts ⟨0, [(0, "A")], [], [("", true)]⟩) = [] := by
  refine ⟨by decide, rfl⟩

/-- **C8** (amended).  `isJitoLeader` returns false whenever the
current slot index has no entry in the slot-to-leader map, regardless
of the other maps; and whenever the validator set has no (true) entry
for the empty string — in particular whenever it has no entry for it
at all — a true answer means the full chain resolves: the slot has a
leader, the leader has a vote account, and that vote account is
mapped to true in the Jito validator set. -/
theorem c8_isJitoLeader_resolution :
    (∀ j : JitoManager,
      j.slotLeader.find? (fun p => p.1 == j.slotIndex) = none →
        isJitoLeader j = false) ∧
    (∀ j : JitoManager, lookupGo j.jitoValidators "" false = false →
      isJitoLeader j = true →
        ∃ leader vote,
          j.slotLeader.find? (fun p => p.1 == j.slotIndex) = some leader ∧
          j.voteAccounts.find? (fun p => p.1 == leader.2) = some vote ∧
          lookupGo j.jitoValidators vote.2 false = true) := by
  constructor
  · intro j hnone
    simp only [isJitoLeader, hnone]
  · intro j hempty htrue
    cases hlead : j.slotLeader.find? (fun p => p.1 == j.slotIndex) with
    | none =>
      simp only [isJitoLeader, hlead] at htrue
      exact absurd htrue (by simp)
    | some leader =>
      simp only [isJitoLeader, hlead] at htrue
      cases hvote : j.voteAccounts.find? (fun p => p.1 == leader.2) with
      | none =>
        exfalso
        simp only [lookupGo, hvote] at htrue
        simp only [lookupGo] at hempty
        rw [htrue] at hempty
        cases hempty
      | some vote =>
        refine ⟨leader, vote, rfl, hvote, ?_⟩
        simp only [lookupGo, hvote] at htrue
        simp only [lookupGo]
        exact htrue

/-- Witness for **C8**: a manager with an empty leader schedule routes
through the standard path. -/
theorem c8_witness : isJitoLeader ⟨5, [], [], [("V", true)]⟩ = false :=
  c8_isJitoLeader_resolution.1 ⟨5, [], [], [("V", true)]⟩ rfl

/-- **C9** counterexample.  The claim says `botHoldsTokens` is true
exactly when `tokensHeld` is non-nil and greater than 100; at
`tokensHeld = 2 ^ 63` (which exceeds 100) the `big.Int.Int64`
conversion wraps to `-2 ^ 63` and the function returns false. -/
theorem c9_counterexample :
    botHoldsTokens ⟨some (2 ^ 63), false, false, false, false, false, false⟩ = false ∧
      (100 : ℤ) < 2 ^ 63 := by
  refine ⟨by decide, by decide⟩

/-- **C9** (amended).  For holdings within the `int64` range,
`botHoldsTokens` is true exactly when `tokensHeld` is non-nil and
greater than 100 (out-of-range values wrap); consequently the
disposal-trigger scan only selects coins with `botHoldsTokens` true,
and the registry-cleanup scan removes a coin that exited the buy path
with `botHoldsTokens` false. -/
theorem c9_botHoldsTokens_spec :
    (∀ t : ℤ, -(2 ^ 63) ≤ t → t < 2 ^ 63 → ∀ c : Coin, c.tokensHeld = some t →
      (botHoldsTokens c = true ↔ 100 < t)) ∧
    (∀ c : Coin, c.tokensHeld = none → botHoldsTokens c = false) ∧
    (∀ pendingCoins : List (String × Coin), ∀ c : Coin,
      c ∈ (fetchCoinsToSell pendingCoins).2 → botHoldsTokens c = true) ∧
    (∀ pendingCoins : List (String × Coin), ∀ mintAddr : String, ∀ c : Coin,
      c.exitedBuyCoin = true → botHoldsTokens c = false →
        (mintAddr, c) ∉ (fetchCoinsToSell pendingCoins).1) := by
  refine ⟨?_, ?_, ?_, ?_⟩
  · intro t h1 h2 c hc
    simp only [botHoldsTokens, hc]
    rw [bigIntToInt64_of_range h1 h2]
    exact decide_eq_true_iff
  · intro c hc
    simp [botHoldsTokens, hc]
  · intro pendingCoins c hc
    exact (fetchCoinsToSell_selected pendingCoins c hc).1
  · exact fetchCoinsToSell_cleanup

/-- Witness for **C9** at a holding of 1000 tokens. -/
theorem c9_witness : botHoldsTokens heldCoin = true ↔ (100 : ℤ) < 1000000 :=
  c9_botHoldsTokens_spec.1 1000000 (by decide) (by decide) heldCoin rfl

/-- **C10** counterexample.  The claim says the recorded creator
purchase equals `0.99 * MaxSolCost` in SOL; at `MaxSolCost = 1e9`
lamports that would be exactly `99/100`, but the recorded value is a
binary `float64` and `99/100` is not representable, so they differ. -/
theorem c10_counterexample :
    fetchCreatorBuy [MintInstr.buy (some 1000000000) (some "ATA")] =
        .ok (creatorBuySol 1000000000) "ATA" ∧
      creatorBuySol 1000000000 ≠ (99 : ℚ) / 100 := by
  have h99 : (99 : ℚ) / 100 = Rat.divInt 99 100 := by
    rw [Rat.divInt_eq_div]
    norm_num
  refine ⟨by decide, ?_⟩
  rw [h99]
  decide

/-- **C10** (amended).  The purchase size recorded by
`fetchCreatorBuy` is the `float64` evaluation of
`0.99 * MaxSolCost / 1e9`, within relative error `2 ^ (-49)` of the
exact value — it is derived from the buy instruction's `MaxSolCost`
(the declared maximum spend), not from an observed fill; and when no
buy instruction with a `MaxSolCost` is present the function returns
`errNoCreatorBuy`, dropping the candidate. -/
theorem c10_fetchCreatorBuy_spec :
    (∀ M : ℕ, 0 < M →
      |creatorBuySol M - (99 / 100 : ℚ) * M / 1000000000| ≤
        ((99 / 100 : ℚ) * M / 1000000000) / 2 ^ 49) ∧
    (∀ instrs : List MintInstr, (∀ c u, MintInstr.buy c u ∉ instrs) →
      fetchCreatorBuy instrs = .err .noCreatorBuy) ∧
    (∀ pre : List MintInstr, (∀ c u, MintInstr.buy c u ∉ pre) →
      ∀ (maxSolCost : ℕ) (user : String) (rest : List MintInstr),
        fetchCreatorBuy (pre ++ MintInstr.buy (some maxSolCost) (some user) :: rest) =
          .ok (creatorBuySol maxSolCost) user) := by
  refine ⟨?_, fetchCreatorBuy_no_buy, fetchCreatorBuy_first_buy⟩
  intro M hM
  obtain ⟨hlow, hhigh⟩ := creatorBuySol_bounds M hM
  have hx : (0 : ℚ) ≤ (99 / 100 : ℚ) * M / 1000000000 := by positivity
  rw [abs_le]
  constructor
  · nlinarith
  · nlinarith

/-- Witness for **C10** at `MaxSolCost = 1e9`. -/
theorem c10_witness :
    |creatorBuySol 1000000000 - (99 / 100 : ℚ) * 1000000000 / 1000000000| ≤
      ((99 / 100 : ℚ) * 1000000000 / 1000000000) / 2 ^ 49 :=
  c10_fetchCreatorBuy_spec.1 1000000000 (by decide)

end PumpBot
